import Mathlib

/-!
Verification of the Polish G2P module (`misaki/pl.py`).

The Python source is shallowly embedded below.  Strings are modelled as
`List Char` (Python `str` is a sequence of Unicode code points), with
`String` wrappers where the original API surface takes strings.
Non-ASCII code points are written with explicit escapes so the embedded
tables are byte-for-byte checkable against the source.
-/

namespace MisakiPL

/-- Python whitespace set for `str.strip` / `str.split()` / regex class
markers on text: the Unicode code points Python treats as whitespace. -/
def pyIsSpace (c : Char) : Bool :=
  [' ', '\t', '\n', '\x0b', '\x0c', '\r',
   '\x1c', '\x1d', '\x1e', '\x1f', '\u0085', ' ', ' ',
   ' ', ' ', ' ', ' ', ' ', ' ', ' ',
   ' ', ' ', ' ', ' ',
   ' ', ' ', ' ', ' ', '　'].contains c

/-- Helper for Python `s.replace('', new)`: `new` is inserted after every
character (the leading copy is added by `pyReplace`). -/
def joinEach (s new : List Char) : List Char :=
  match s with
  | [] => []
  | c :: rest => c :: (new ++ joinEach rest new)

/-- Fuel-driven scan implementing Python `str.replace` for a non-empty
pattern: leftmost, non-overlapping occurrences of `old` are replaced by
`new`.  The fuel is an upper bound on the number of characters consumed;
`pyReplace` supplies `s.length`, which is always sufficient. -/
def replaceFuel (old new : List Char) : Nat → List Char → List Char
  | _, [] => []
  | 0, s => s
  | fuel + 1, c :: rest =>
    if old.isPrefixOf (c :: rest) then
      new ++ replaceFuel old new fuel ((c :: rest).drop old.length)
    else
      c :: replaceFuel old new fuel rest

/-- Python `s.replace(old, new)` on code-point lists. -/
def pyReplace (s old new : List Char) : List Char :=
  if old = [] then new ++ joinEach s new
  else replaceFuel old new s.length s

/-- Python `s.strip()`: drop leading and trailing whitespace. -/
def pyStrip (s : List Char) : List Char :=
  (((s.dropWhile pyIsSpace).reverse.dropWhile pyIsSpace)).reverse

/-- Fuel-driven scan implementing Python `s.split()` (split on whitespace
runs, no empty tokens).  `pySplit` supplies sufficient fuel. -/
def splitFuel : Nat → List Char → List (List Char)
  | _, [] => []
  | 0, s => [s]
  | fuel + 1, c :: rest =>
    if pyIsSpace c then splitFuel fuel rest
    else (c :: rest.takeWhile (fun d => !(pyIsSpace d))) ::
      splitFuel fuel (rest.dropWhile (fun d => !(pyIsSpace d)))

/-- Python `s.split()`. -/
def pySplit (s : List Char) : List (List Char) :=
  splitFuel s.length s

/-- `' '.join(tokens)`. -/
def joinSpaces (ws : List (List Char)) : List Char :=
  List.intercalate [' '] ws

/-- Does `a` occur in `s`?  (`a in s` for a single character.) -/
def hasChar (a : Char) (s : List Char) : Bool :=
  s.any (fun c => c == a)

/-- Is `p` a contiguous substring of `s`? -/
def isSubstring (p s : List Char) : Bool :=
  match s with
  | [] => p.isEmpty
  | _ :: rest => p.isPrefixOf s || isSubstring p rest

/-- `PL_PHONEME_MAP` from the source: the result of
`sorted({...}.items(), key=lambda kv: -len(kv[0]))` — Python's stable sort
by decreasing pattern length, dict insertion order within equal lengths.
Code points written with escapes; they match the source bytes. -/
def PL_PHONEME_MAP : List (String × String) :=
  [("t^s", "ʦ"), ("d^z", "ʣ"),
   ("t^ʃ", "ʧ"), ("d^ʒ", "ʤ"),
   ("t^ɕ", "ʨ"), ("d^ʑ", "ʥ"),
   ("tʃ", "ʧ"), ("dʒ", "ʤ"),
   ("ts", "ʦ"), ("dz", "ʣ"),
   ("tɕ", "ʨ"), ("dʑ", "ʥ"),
   ("ɛ̃", "ɛ̃"), ("ɔ̃", "ɔ̃"),
   ("ɨ", "ɨ"), ("ʐ", "ʐ"), ("ʂ", "ʂ"),
   ("ɕ", "ɕ"), ("ʑ", "ʑ"), ("ɲ", "ɲ"),
   ("ː", "")]

/-- `PLCleaner.ABBREVIATIONS`, in dict insertion order. -/
def ABBREVIATIONS : List (String × String) :=
  [("dr", "doktor"), ("prof.", "profesor"), ("mgr", "magister"),
   ("inż.", "inżynier"), ("ul.", "ulica"), ("al.", "aleja"),
   ("pl.", "plac"), ("nr", "numer"), ("tel.", "telefon"),
   ("godz.", "godzina"), ("min.", "minuta"), ("sek.", "sekunda"),
   ("tys.", "tysięcy"), ("mln", "milionów"),
   ("mld", "miliardów"), ("zł", "złotych"), ("gr", "groszy"),
   ("r.", "roku"), ("w.", "wieku"), ("n.e.", "naszej ery"),
   ("p.n.e.", "przed naszą erą"), ("itd.", "i tak dalej"),
   ("itp.", "i tym podobne"), ("np.", "na przykład"),
   ("tj.", "to jest"), ("tzn.", "to znaczy"), ("tzw.", "tak zwany"),
   ("wg", "według"), ("ws.", "w sprawie"), ("ds.", "do spraw"),
   ("ok.", "około"), ("ca", "około"),
   ("św.", "święty")]

/-- The `replacements` table of `PLCleaner._normalize_unicode`.  In the
source every key is byte-identical to its value (precomposed Polish
letters mapped to themselves). -/
def plReplacements : List (String × String) :=
  [("ą", "ą"), ("ć", "ć"), ("ę", "ę"),
   ("ł", "ł"), ("ń", "ń"), ("ó", "ó"),
   ("ś", "ś"), ("ź", "ź"), ("ż", "ż"),
   ("Ą", "Ą"), ("Ć", "Ć"), ("Ę", "Ę"),
   ("Ł", "Ł"), ("Ń", "Ń"), ("Ó", "Ó"),
   ("Ś", "Ś"), ("Ź", "Ź"), ("Ż", "Ż")]

/-- Python `str.lower` on a single character, restricted to ASCII plus the
Polish uppercase letters occurring in this module's data. -/
def pyLowerChar (c : Char) : Char :=
  if c = 'Ą' then 'ą' else if c = 'Ć' then 'ć'
  else if c = 'Ę' then 'ę' else if c = 'Ł' then 'ł'
  else if c = 'Ń' then 'ń' else if c = 'Ó' then 'ó'
  else if c = 'Ś' then 'ś' else if c = 'Ź' then 'ź'
  else if c = 'Ż' then 'ż' else c.toLower

/-- The trailing-punctuation set of `word.lower().rstrip('.,;:!?')`. -/
def punctChars : List Char := ['.', ',', ';', ':', '!', '?']

/-- Python `w.rstrip('.,;:!?')`. -/
def rstripPunct (w : List Char) : List Char :=
  (w.reverse.dropWhile (fun c => punctChars.contains c)).reverse

/-- The lookup key built by `_expand_abbreviations`:
`word.lower().rstrip('.,;:!?')`. -/
def lookupKey (w : List Char) : List Char :=
  rstripPunct (w.map pyLowerChar)

/-- `PLCleaner._expand_abbreviations`: split on whitespace, replace tokens
whose lookup key is an `ABBREVIATIONS` key, re-join with single spaces. -/
def expand_abbreviations (s : List Char) : List Char :=
  joinSpaces ((pySplit s).map (fun w =>
    match ABBREVIATIONS.find? (fun p => p.1.data == lookupKey w) with
    | some p => p.2.data
    | none => w))

/-- `PLCleaner._normalize_unicode`: sequential `str.replace` over the
`replacements` table. -/
def normalize_unicode (s : List Char) : List Char :=
  plReplacements.foldl (fun t p => pyReplace t p.1.data p.2.data) s

/-- `PLCleaner.__call__`: strip, normalize unicode, expand abbreviations. -/
def cleanerL (s : List Char) : List Char :=
  expand_abbreviations (normalize_unicode (pyStrip s))

/-- `PLCleaner.__call__` at the string level. -/
def cleaner (s : String) : String := String.mk (cleanerL s.data)

/-- `replace_number` inside `PLG2P._convert_numbers`.  The external
numeral-spelling collaborator is abstracted as
`spell : String → Option String`; it stands for `num2words` composed with
Python `int`/`float` parsing of the matched text (parsing of a
regex-matched numeral never fails, and a raised `num2words` exception is
`none`).  The matched text with `','` normalized to `'.'` determines the
number passed on, so `spell` receives that normalized text. -/
def replaceNumber (spell : String → Option String) (m : List Char) :
    List Char :=
  if m.contains '.' = false ∧ m.contains ',' = false then
    match spell (String.mk m) with
    | some w => w.data
    | none => m
  else
    match spell (String.mk (m.map (fun c => if c = ',' then '.' else c))) with
    | some w => w.data
    | none => m

/-- Fuel-driven scan implementing
`re.sub(r'\d+(?:[.,]\d+)?', replace_number, text)`: maximal digit runs,
optionally extended by one `.`/`,` separator followed by more digits.
`convert_numbers` supplies sufficient fuel. -/
def convNumFuel (spell : String → Option String) :
    Nat → List Char → List Char
  | _, [] => []
  | 0, s => s
  | fuel + 1, c :: rest =>
    if c.isDigit then
      let ds := c :: rest.takeWhile Char.isDigit
      match rest.dropWhile Char.isDigit with
      | sep :: d2 :: rest2 =>
        if (sep = '.' ∨ sep = ',') ∧ d2.isDigit then
          replaceNumber spell (ds ++ sep :: d2 :: rest2.takeWhile Char.isDigit)
            ++ convNumFuel spell fuel (rest2.dropWhile Char.isDigit)
        else
          replaceNumber spell ds ++ convNumFuel spell fuel (sep :: d2 :: rest2)
      | [sep] => replaceNumber spell ds ++ convNumFuel spell fuel [sep]
      | [] => replaceNumber spell ds
    else
      c :: convNumFuel spell fuel rest

/-- `PLG2P._convert_numbers`. -/
def convert_numbers (spell : String → Option String) (s : String) : String :=
  String.mk (convNumFuel spell s.data.length s.data)

/-- The quote-handling replaces of `PLG2P.__call__` (lines 200-201); the
last replace in the source maps `'"'` to itself. -/
def quoteNorm (s : List Char) : List Char :=
  pyReplace (pyReplace (pyReplace (pyReplace s
    "«".data "\"".data) "»".data "\"".data)
    "„".data "\"".data) "\"".data "\"".data

/-- Sequential application of `PL_PHONEME_MAP`
(`for old, new in PL_PHONEME_MAP: ps = ps.replace(old, new)`). -/
def applyMap (s : List Char) : List Char :=
  PL_PHONEME_MAP.foldl (fun t p => pyReplace t p.1.data p.2.data) s

/-- `applyMap` at the string level. -/
def applyMapS (s : String) : String := String.mk (applyMap s.data)

/-- `re.sub(r'(\S)̩', r'ᵊ\1', ps)`: a non-whitespace character
followed by U+0329 becomes U+1D4A then that character; leftmost,
non-overlapping. -/
def subSyllabic : List Char → List Char
  | [] => []
  | [c] => [c]
  | c :: d :: rest =>
    if pyIsSpace c = false ∧ d = Char.ofNat 809 then
      'ᵊ' :: c :: subSyllabic rest
    else
      c :: subSyllabic (d :: rest)

/-- Lines 208-222 of `PLG2P.__call__`: `ps[0].strip()`, phoneme map,
`'^'` removal, then version-dependent cleanup (`chr(809)` is U+0329 and
`chr(810)` is U+032A). -/
def postprocessL (version : String) (raw : List Char) : List Char :=
  let p1 := applyMap (pyStrip raw)
  let p2 := pyReplace p1 ['^'] []
  if version = "2.0" then
    subSyllabic (pyReplace (pyReplace p2 [Char.ofNat 809] []) [Char.ofNat 810] [])
  else
    pyReplace p2 ['-'] []

/-- Postprocessing at the string level. -/
def postprocess (version raw : String) : String :=
  String.mk (postprocessL version raw.data)

/-- The default of the `version` parameter of `PLG2P.__init__`. -/
def defaultVersion : String := "2.0"

/-- The text-side pipeline of `PLG2P.__call__` before the backend call:
clean, convert numbers when `num2words` is available (`n2w = some spell`),
normalize quotes. -/
def preprocess (n2w : Option (String → Option String)) (text : String) :
    String :=
  let t1 := cleaner text
  let t2 := match n2w with
    | some spell => convert_numbers spell t1
    | none => t1
  String.mk (quoteNorm t2.data)

/-- `PLG2P.__call__`.  The external transcription engine
(`self.backend.phonemize([text])`) is abstracted as
`backend : String → Except ε (List String)`: `Except.error` models a
raised Python exception, which propagates (the source has no
`try`/`except` around the call), and `Except.ok ps` models a returned
list, handled by `if not ps: return '', None` and `ps[0]`. -/
def callG2P {ε : Type} (backend : String → Except ε (List String))
    (n2w : Option (String → Option String)) (version : String)
    (text : String) : Except ε (String × Option Unit) :=
  match backend (preprocess n2w text) with
  | .error e => .error e
  | .ok [] => .ok ("", none)
  | .ok (p :: _) => .ok (postprocess version p, none)

/-- Checks that consecutive rules have non-increasing source length
(longest-source-first order). -/
def sortedLongestFirst : List (String × String) → Bool
  | [] => true
  | [_] => true
  | p :: q :: rest =>
    decide (q.1.length ≤ p.1.length) && sortedLongestFirst (q :: rest)

/-- Checks that no rule's source is a proper substring of a later rule's
source (so wherever two sources overlap as substrings, the longer one is
applied first). -/
def longerRuleFirst : List (String × String) → Bool
  | [] => true
  | p :: rest =>
    rest.all (fun q => !(isSubstring p.1.data q.1.data) || p.1 == q.1) &&
      longerRuleFirst rest

/-- Checks that any rule source occurring inside some rule's replacement
maps to itself, so text produced by an earlier rule is never changed by a
later (shorter) rule. -/
def replacementsInert (rules : List (String × String)) : Bool :=
  rules.all (fun p => rules.all (fun q =>
    !(isSubstring q.1.data p.2.data) || (q.2 == q.1)))

/-- `_expand_abbreviations` at the string level. -/
def expandAbbreviationsStr (s : String) : String :=
  String.mk (expand_abbreviations s.data)

/-- `_normalize_unicode` at the string level. -/
def normalizeUnicodeStr (s : String) : String :=
  String.mk (normalize_unicode s.data)

section BasicLemmas

theorem joinEach_nil_insert (s : List Char) : joinEach s [] = s := by
  induction s with
  | nil => rfl
  | cons c rest ih => simp [joinEach, ih]

theorem isPrefixOf_append_drop :
    ∀ (old s : List Char), old.isPrefixOf s = true →
      old ++ s.drop old.length = s := by
  intro old
  induction old with
  | nil => intro s _; simp
  | cons o os ih =>
    intro s h
    cases s with
    | nil => simp [List.isPrefixOf] at h
    | cons c rest =>
      simp only [List.isPrefixOf, Bool.and_eq_true, beq_iff_eq] at h
      obtain ⟨rfl, h2⟩ := h
      simpa using ih rest h2

theorem length_le_of_isPrefixOf {old s : List Char}
    (h : old.isPrefixOf s = true) : old.length ≤ s.length := by
  have := isPrefixOf_append_drop old s h
  have hlen : (old ++ s.drop old.length).length = s.length := by rw [this]
  simp only [List.length_append, List.length_drop] at hlen
  omega

theorem replaceFuel_nil (old new : List Char) (fuel : Nat) :
    replaceFuel old new fuel [] = [] := by
  cases fuel <;> rfl

theorem replaceFuel_self (old : List Char) (hne : old ≠ []) :
    ∀ (fuel : Nat) (s : List Char), s.length ≤ fuel →
      replaceFuel old old fuel s = s := by
  intro fuel
  induction fuel with
  | zero =>
    intro s hs
    cases s with
    | nil => rfl
    | cons c rest => simp at hs
  | succ n ih =>
    intro s hs
    cases s with
    | nil => rfl
    | cons c rest =>
      by_cases h : old.isPrefixOf (c :: rest) = true
      · have hdrop := isPrefixOf_append_drop old (c :: rest) h
        have hlen : old.length ≤ (c :: rest).length := length_le_of_isPrefixOf h
        have hold1 : 1 ≤ old.length := by
          cases old with
          | nil => exact absurd rfl hne
          | cons _ _ => simp
        have hrec : ((c :: rest).drop old.length).length ≤ n := by
          simp only [List.length_drop] at *
          simp only [List.length_cons] at hs hlen ⊢
          omega
        simp only [replaceFuel]
        rw [if_pos h, ih _ hrec, hdrop]
      · simp only [replaceFuel]
        rw [if_neg h]
        have : rest.length ≤ n := by
          simp only [List.length_cons] at hs; omega
        rw [ih rest this]

theorem pyReplace_self (s old : List Char) : pyReplace s old old = s := by
  by_cases h : old = []
  · subst h
    simp [pyReplace, joinEach_nil_insert]
  · simp only [pyReplace, h, if_false]
    exact replaceFuel_self old h s.length s le_rfl

theorem replaceFuel_del (a : Char) :
    ∀ (fuel : Nat) (s : List Char), s.length ≤ fuel →
      replaceFuel [a] [] fuel s = s.filter (fun c => !(c == a)) := by
  intro fuel
  induction fuel with
  | zero =>
    intro s hs
    cases s with
    | nil => rfl
    | cons c rest => simp at hs
  | succ n ih =>
    intro s hs
    cases s with
    | nil => rfl
    | cons c rest =>
      have hrest : rest.length ≤ n := by
        simp only [List.length_cons] at hs; omega
      by_cases h : a = c
      · subst h
        have hpre : [a].isPrefixOf (a :: rest) = true := by
          simp [List.isPrefixOf]
        simp only [replaceFuel]
        rw [if_pos hpre]
        simp only [List.length_cons, List.length_nil, List.drop_succ_cons,
          List.drop_zero, List.nil_append]
        rw [ih rest hrest]
        simp [List.filter]
      · have hpre : ¬([a].isPrefixOf (c :: rest) = true) := by
          simp [List.isPrefixOf]
          exact h
        simp only [replaceFuel]
        rw [if_neg hpre, ih rest hrest]
        have : (c == a) = false := by
          simp only [beq_eq_false_iff_ne, ne_eq]
          exact fun hc => absurd hc.symm h
        simp [List.filter, this]

theorem pyReplace_del (s : List Char) (a : Char) :
    pyReplace s [a] [] = s.filter (fun c => !(c == a)) := by
  have h : ([a] : List Char) ≠ [] := by simp
  simp only [pyReplace]
  rw [if_neg h]
  exact replaceFuel_del a s.length s le_rfl

theorem mem_joinEach {d : Char} {s new : List Char}
    (h : d ∈ joinEach s new) : d ∈ s ∨ d ∈ new := by
  induction s with
  | nil => simp [joinEach] at h
  | cons c rest ih =>
    simp only [joinEach, List.mem_cons, List.mem_append] at h
    rcases h with rfl | h | h
    · exact Or.inl (by simp)
    · exact Or.inr h
    · rcases ih h with h' | h'
      · exact Or.inl (by simp [h'])
      · exact Or.inr h'

theorem mem_replaceFuel {d : Char} {old new : List Char} :
    ∀ {fuel : Nat} {s : List Char}, d ∈ replaceFuel old new fuel s →
      d ∈ s ∨ d ∈ new := by
  intro fuel
  induction fuel with
  | zero =>
    intro s h
    cases s with
    | nil => simp [replaceFuel_nil] at h
    | cons c rest => exact Or.inl h
  | succ n ih =>
    intro s h
    cases s with
    | nil => simp [replaceFuel_nil] at h
    | cons c rest =>
      by_cases hp : old.isPrefixOf (c :: rest) = true
      · simp only [replaceFuel] at h
        rw [if_pos hp] at h
        rw [List.mem_append] at h
        rcases h with h | h
        · exact Or.inr h
        · rcases ih h with h' | h'
          · exact Or.inl (List.mem_of_mem_drop h')
          · exact Or.inr h'
      · simp only [replaceFuel] at h
        rw [if_neg hp] at h
        rw [List.mem_cons] at h
        rcases h with rfl | h
        · exact Or.inl (by simp)
        · rcases ih h with h' | h'
          · exact Or.inl (by simp [h'])
          · exact Or.inr h'

theorem mem_pyReplace {d : Char} {s old new : List Char}
    (h : d ∈ pyReplace s old new) : d ∈ s ∨ d ∈ new := by
  by_cases ho : old = []
  · subst ho
    simp only [pyReplace, if_true, List.mem_append] at h
    rcases h with h | h
    · exact Or.inr h
    · exact mem_joinEach h
  · simp only [pyReplace, ho, if_false] at h
    exact mem_replaceFuel h

theorem hasChar_false_iff (a : Char) (s : List Char) :
    hasChar a s = false ↔ ∀ c ∈ s, c ≠ a := by
  simp only [hasChar]
  rw [← Bool.not_eq_true, List.any_eq_true]
  constructor
  · intro h c hc
    intro hca
    exact h ⟨c, hc, by simp [hca]⟩
  · rintro h ⟨c, hc, hbeq⟩
    exact h c hc (by simpa using hbeq)

end BasicLemmas

section PipelineLemmas

theorem mem_del_ne {x a : Char} {s : List Char}
    (h : x ∈ pyReplace s [a] []) : x ∈ s ∧ x ≠ a := by
  rw [pyReplace_del] at h
  rw [List.mem_filter] at h
  refine ⟨h.1, ?_⟩
  simpa using h.2

theorem mem_subSyllabic_aux (x : Char) :
    ∀ (n : Nat) (s : List Char), s.length ≤ n → x ∈ subSyllabic s →
      x = 'ᵊ' ∨ x ∈ s := by
  intro n
  induction n with
  | zero =>
    intro s hs hx
    cases s with
    | nil => simp [subSyllabic] at hx
    | cons c rest => simp at hs
  | succ n ih =>
    intro s hs hx
    cases s with
    | nil => simp [subSyllabic] at hx
    | cons c rest =>
      cases rest with
      | nil =>
        simp only [subSyllabic] at hx
        exact Or.inr hx
      | cons d rest2 =>
        simp only [subSyllabic] at hx
        by_cases hcond : (pyIsSpace c = false ∧ d = Char.ofNat 809)
        · rw [if_pos hcond] at hx
          simp only [List.mem_cons] at hx
          rcases hx with rfl | rfl | hx
          · exact Or.inl rfl
          · exact Or.inr (by simp)
          · have hlen : rest2.length ≤ n := by
              simp only [List.length_cons] at hs; omega
            rcases ih rest2 hlen hx with h' | h'
            · exact Or.inl h'
            · exact Or.inr (by simp [h'])
        · rw [if_neg hcond] at hx
          simp only [List.mem_cons] at hx
          rcases hx with rfl | hx
          · exact Or.inr (by simp)
          · have hlen : (d :: rest2).length ≤ n := by
              simp only [List.length_cons] at hs ⊢; omega
            rcases ih (d :: rest2) hlen hx with h' | h'
            · exact Or.inl h'
            · exact Or.inr (by simp [List.mem_cons] at h' ⊢; tauto)

theorem mem_subSyllabic {x : Char} {s : List Char}
    (h : x ∈ subSyllabic s) : x = 'ᵊ' ∨ x ∈ s :=
  mem_subSyllabic_aux x s.length s le_rfl h

theorem tie_removed (version : String) (raw : List Char) :
    hasChar '^' (postprocessL version raw) = false := by
  rw [hasChar_false_iff]
  intro x hx
  simp only [postprocessL] at hx
  split at hx
  · rcases mem_subSyllabic hx with rfl | hx2
    · decide
    · have h1 := mem_del_ne hx2
      have h2 := mem_del_ne h1.1
      have h3 := mem_del_ne h2.1
      exact h3.2
  · have h1 := mem_del_ne hx
    have h2 := mem_del_ne h1.1
    exact h2.2

theorem normalize_unicode_id (s : List Char) : normalize_unicode s = s := by
  simp only [normalize_unicode, plReplacements, List.foldl_cons,
    List.foldl_nil, pyReplace_self]

theorem replaceNumber_none (m : List Char) :
    replaceNumber (fun _ => none) m = m := by
  unfold replaceNumber
  split <;> rfl

theorem convNumFuel_none :
    ∀ (fuel : Nat) (s : List Char), convNumFuel (fun _ => none) fuel s = s := by
  intro fuel
  induction fuel with
  | zero => intro s; cases s <;> rfl
  | succ n ih =>
    intro s
    cases s with
    | nil => rfl
    | cons c rest =>
      by_cases hc : c.isDigit = true
      · simp only [convNumFuel]
        rw [if_pos hc]
        split
        · next sep d2 rest2 hd =>
          by_cases hif : ((sep = '.' ∨ sep = ',') ∧ d2.isDigit = true)
          · rw [if_pos hif, replaceNumber_none, ih]
            have hre := List.takeWhile_append_dropWhile (p := Char.isDigit) (l := rest)
            have hre2 := List.takeWhile_append_dropWhile (p := Char.isDigit) (l := rest2)
            rw [hd] at hre
            simp only [List.cons_append, List.append_assoc]
            rw [hre2, hre]
          · rw [if_neg hif, replaceNumber_none, ih]
            have hre := List.takeWhile_append_dropWhile (p := Char.isDigit) (l := rest)
            rw [hd] at hre
            simp only [List.cons_append]
            rw [hre]
        · next sep hd =>
          rw [replaceNumber_none, ih]
          have hre := List.takeWhile_append_dropWhile (p := Char.isDigit) (l := rest)
          rw [hd] at hre
          simp only [List.cons_append]
          rw [hre]
        · next hd =>
          rw [replaceNumber_none]
          have hre := List.takeWhile_append_dropWhile (p := Char.isDigit) (l := rest)
          rw [hd, List.append_nil] at hre
          rw [hre]
      · simp only [convNumFuel]
        rw [if_neg hc, ih]

theorem dropWhile_head_false {p : Char → Bool} :
    ∀ {l : List Char} {c : Char} {rest : List Char},
      l.dropWhile p = c :: rest → p c = false := by
  intro l
  induction l with
  | nil => intro c rest h; simp [List.dropWhile] at h
  | cons a as ih =>
    intro c rest h
    rw [List.dropWhile_cons] at h
    split at h
    · exact ih h
    · next hpa =>
      injection h with h1 h2
      subst h1
      simpa using hpa

theorem pyStrip_all_space {s : List Char} (h : ∀ c ∈ s, pyIsSpace c = true) :
    pyStrip s = [] := by
  unfold pyStrip
  have h1 : s.dropWhile pyIsSpace = [] := by
    rw [List.dropWhile_eq_nil_iff]
    exact h
  rw [h1]
  rfl

theorem cleanerL_ws (s : List Char) (h : ∀ c ∈ s, pyIsSpace c = true) :
    cleanerL s = [] := by
  unfold cleanerL
  rw [pyStrip_all_space h, normalize_unicode_id]
  rfl

end PipelineLemmas

section Claims

/-- C1: if the external transcription engine fails (a raised exception,
modelled as `Except.error`), `PLG2P.__call__` propagates the failure to
the caller unchanged — in particular it does not return an empty
phoneme string — so the failure is a hard one and is never silently
swallowed. -/
theorem c1_engine_failure_propagates {ε : Type}
    (backend : String → Except ε (List String))
    (n2w : Option (String → Option String)) (version text : String) (e : ε)
    (hfail : backend (preprocess n2w text) = Except.error e) :
    callG2P backend n2w version text = Except.error e := by
  unfold callG2P
  rw [hfail]

theorem c1_engine_failure_propagates_witness :
    callG2P (fun _ : String => (Except.error "down" : Except String (List String)))
      none "2.0" "tekst" = Except.error "down" :=
  c1_engine_failure_propagates
    (fun _ : String => (Except.error "down" : Except String (List String)))
    none "2.0" "tekst" "down" rfl

/-- C2: the claim fails on the code.  `_expand_abbreviations` builds its
lookup key with `word.lower().rstrip('.,;:!?')`, so the key never ends in
`'.'`, yet the `ABBREVIATIONS` table contains keys ending in `'.'` (such
as `'prof.'`).  Those entries are unreachable: the token `prof.` is left
unchanged instead of expanding to `profesor`.  The three conjuncts below
record: the evaluation at the failing input, that the entry exists in the
table, and that no token's lookup key can ever equal the key `'prof.'`. -/
theorem c2_dot_keys_unreachable :
    expandAbbreviationsStr "prof. Kowalski" = "prof. Kowalski" ∧
    ("prof.", "profesor") ∈ ABBREVIATIONS ∧
    (∀ w : List Char, (lookupKey w == "prof.".data) = false) := by
  refine ⟨by decide, by decide, ?_⟩
  intro w
  rw [beq_eq_false_iff_ne]
  intro hkey
  have h1 : ((w.map pyLowerChar).reverse.dropWhile
      (fun c => punctChars.contains c)).reverse = ['p', 'r', 'o', 'f', '.'] := hkey
  have h2 := congrArg List.reverse h1
  rw [List.reverse_reverse] at h2
  have h3 : (w.map pyLowerChar).reverse.dropWhile (fun c => punctChars.contains c)
      = ['.', 'f', 'o', 'r', 'p'] := by rw [h2]; decide
  have h4 := dropWhile_head_false h3
  exact absurd h4 (by decide)

/-- C3: the claim is right but the code is wrong.  Line 219 deletes
`chr(809)` = U+0329 itself, so by the time the `re.sub` on line 220 runs
there is no U+0329 left and the schwa insertion is dead code: a raw token
consonant + U+0329 comes out as the bare consonant, not as `ᵊ` before the
consonant.  The theorem evaluates the postprocessor at the failing
input. -/
theorem c3_syllabic_mark_deleted_not_transformed :
    postprocess "2.0" (String.mk ['n', Char.ofNat 809]) = "n" ∧
    (postprocess "2.0" (String.mk ['n', Char.ofNat 809]) == "ᵊn") = false := by
  decide

/-- C4: `PL_PHONEME_MAP` is sorted with strictly longest source patterns
first (`sortedLongestFirst`), no rule's source is a proper substring of a
later rule's source (`longerRuleFirst`), and any rule source occurring
inside a replacement belongs to an identity rule (`replacementsInert`) —
so text consumed by an earlier (longer) rule is never re-matched by a
shorter rule.  The concrete evaluations show the longer pattern winning
on a raw string containing a 3-character and an embedded 2-character
affricate notation, and the global (all-occurrences) character of each
replace pass. -/
theorem c4_longest_match_first :
    sortedLongestFirst PL_PHONEME_MAP = true ∧
    longerRuleFirst PL_PHONEME_MAP = true ∧
    replacementsInert PL_PHONEME_MAP = true ∧
    applyMapS "t^ɕtɕ" = "ʨʨ" ∧
    applyMapS "tɕ" = "ʨ" ∧
    applyMapS "tsats" = "ʦaʦ" := by
  decide

/-- C5 counterexample: the claim says the two combining diacritics deleted
under version "2.0" are U+0329 and U+032D, so no U+032D survives; but the
code deletes `chr(809)` = U+0329 and `chr(810)` = U+032A, and a U+032D in
the raw transcription is still present in the final output. -/
theorem c5_u032d_survives :
    hasChar (Char.ofNat 813)
      ((postprocess "2.0" (String.mk ['t', Char.ofNat 813])).data) = true := by
  decide

/-- C5 (amended): with format version "2.0" the two combining diacritics
deleted are exactly U+0329 (`chr(809)`) and U+032A (`chr(810)`), and
neither appears in the final output for any raw transcription. -/
theorem c5_deleted_diacritics :
    ∀ raw : String,
      hasChar (Char.ofNat 809) (postprocessL "2.0" raw.data) = false ∧
      hasChar (Char.ofNat 810) (postprocessL "2.0" raw.data) = false := by
  intro raw
  constructor <;>
  · rw [hasChar_false_iff]
    intro x hx
    simp only [postprocessL] at hx
    split at hx
    · rcases mem_subSyllabic hx with rfl | hx2
      · decide
      · have h1 := mem_del_ne hx2
        have h2 := mem_del_ne h1.1
        first
          | exact h2.2
          | exact h1.2
    · next hv => exact absurd trivial hv

/-- C6: each of the six tie-marked affricate sequences and each of their
six plain two-character equivalents is mapped by the phoneme map to the
corresponding single canonical affricate symbol, and for every version
and every raw transcription the postprocessed output contains no
tie-marker `'^'`. -/
theorem c6_affricate_canonicalization :
    (applyMapS "t^s" = "ʦ" ∧ applyMapS "d^z" = "ʣ" ∧
     applyMapS "t^ʃ" = "ʧ" ∧ applyMapS "d^ʒ" = "ʤ" ∧
     applyMapS "t^ɕ" = "ʨ" ∧ applyMapS "d^ʑ" = "ʥ" ∧
     applyMapS "tʃ" = "ʧ" ∧ applyMapS "dʒ" = "ʤ" ∧
     applyMapS "ts" = "ʦ" ∧ applyMapS "dz" = "ʣ" ∧
     applyMapS "tɕ" = "ʨ" ∧ applyMapS "dʑ" = "ʥ") ∧
    (∀ version raw : String, hasChar '^' (postprocessL version raw.data) = false) :=
  ⟨by decide, fun version raw => tie_removed version raw.data⟩

/-- C7: the unicode canonicalization step of text cleaning
(`_normalize_unicode`) is idempotent: applying it twice equals applying it
once (in this source it is in fact the identity, since every key of its
replacement table equals its value). -/
theorem c7_normalize_unicode_idempotent :
    ∀ s : String, normalizeUnicodeStr (normalizeUnicodeStr s) = normalizeUnicodeStr s := by
  intro s
  simp only [normalizeUnicodeStr, normalize_unicode_id]

/-- C8: for the numeral match `12,5` in `12,5 km`, the separator is
normalized to `.` and the whole match is handed to the numeral speller as
the single decimal `12.5` (not as two integers); if spelling fails the
original text is left unchanged at that location; and with an
always-failing speller the whole text passes through unchanged, with no
error propagated. -/
theorem c8_decimal_numerals (spell : String → Option String) (w : String) :
    (spell "12.5" = some w → convert_numbers spell "12,5 km" = w ++ " km") ∧
    (spell "12.5" = none → convert_numbers spell "12,5 km" = "12,5 km") ∧
    (∀ t : String, convert_numbers (fun _ => none) t = t) := by
  refine ⟨?_, ?_, ?_⟩
  · intro h
    have base : convert_numbers spell "12,5 km" =
        String.mk ((match spell "12.5" with
          | some v => v.data
          | none => ['1', '2', ',', '5']) ++ [' ', 'k', 'm']) := rfl
    rw [h] at base
    rw [base]
    rfl
  · intro h
    have base : convert_numbers spell "12,5 km" =
        String.mk ((match spell "12.5" with
          | some v => v.data
          | none => ['1', '2', ',', '5']) ++ [' ', 'k', 'm']) := rfl
    rw [h] at base
    rw [base]
    rfl
  · intro t
    show String.mk (convNumFuel (fun _ => none) t.data.length t.data) = t
    rw [convNumFuel_none]

theorem c8_decimal_numerals_witness :
    convert_numbers (fun s => if s = "12.5" then some "W" else none) "12,5 km"
      = "W" ++ " km" ∧
    convert_numbers (fun _ => none) "12,5 km" = "12,5 km" :=
  ⟨(c8_decimal_numerals (fun s => if s = "12.5" then some "W" else none) "W").1
      (by decide),
   (c8_decimal_numerals (fun s => if s = "12.5" then some "W" else none) "W").2.2
      "12,5 km"⟩

/-- C9: for every empty or whitespace-only input, and any backend that on
the resulting empty query returns a list of empty-or-whitespace
transcriptions (as the real engine does on empty input), `PLG2P.__call__`
returns the empty phoneme string with the auxiliary value absent — not an
error. -/
theorem c9_empty_input {ε : Type} (backend : String → Except ε (List String))
    (n2w : Option (String → Option String)) (version text : String)
    (l : List String)
    (hws : ∀ c ∈ text.data, pyIsSpace c = true)
    (hb : backend "" = Except.ok l)
    (hl : ∀ p ∈ l, ∀ c ∈ String.data p, pyIsSpace c = true) :
    callG2P backend n2w version text = Except.ok ("", none) := by
  have hclean : cleaner text = "" := by
    unfold cleaner
    rw [cleanerL_ws text.data hws]
  have hpre : preprocess n2w text = "" := by
    unfold preprocess
    rw [hclean]
    cases n2w with
    | none => rfl
    | some spell => rfl
  unfold callG2P
  rw [hpre, hb]
  cases l with
  | nil => rfl
  | cons p tail =>
    have hp : ∀ c ∈ String.data p, pyIsSpace c = true := hl p (by simp)
    have hstrip : pyStrip (String.data p) = [] := pyStrip_all_space hp
    simp only [postprocess, postprocessL, hstrip]
    split <;> rfl

theorem c9_empty_input_witness :
    callG2P (fun _ : String => (Except.ok [""] : Except Unit (List String)))
      none "2.0" "   " = Except.ok ("", none) :=
  c9_empty_input (fun _ : String => (Except.ok [""] : Except Unit (List String)))
    none "2.0" "   " [""] (by decide) rfl (by decide)

/-- C10: the `version` parameter of `PLG2P.__init__` defaults to "2.0",
so by default the version-"2.0" syllabic handling (deletion of the two
combining diacritics, schwa substitution path) applies to every raw
transcription, and plain hyphens are not stripped — unlike under any
other version string. -/
theorem c10_default_version :
    defaultVersion = "2.0" ∧
    (∀ raw : String, postprocess defaultVersion raw = postprocess "2.0" raw) ∧
    postprocess defaultVersion "a-b" = "a-b" ∧
    postprocess "1.0" "a-b" = "ab" ∧
    postprocess defaultVersion (String.mk ['a', Char.ofNat 809]) = "a" := by
  refine ⟨rfl, fun raw => rfl, ?_, ?_, ?_⟩ <;> decide

end Claims

end MisakiPL
